import Mathlib

/-! Shallow embedding of the FRI prover core
`src/redshift/IOP/FRI/coset_combining_fri/fri.rs` and of the verifier
fragment `src/redshift/redshift/verifier.rs` of the bellman/redshift
repository, together with proofs about the embedded definitions.

Machine integers (`usize`) are modelled as `Nat`; the prime field `F` is an
abstract `Field`; vectors indexed in-bounds are modelled as functions
`Nat → F` or as `List F`; Rust panics (failed `assert!`, arithmetic
underflow in debug builds) and `Err` returns are both modelled as `none`. -/

set_option maxHeartbeats 1000000

/-- Modelled from the spec: `log2_floor` from
`redshift::fft::cooley_tukey_ntt` (its body is not part of the provided
sources; the spec uses it as exact `log2` of powers of two): the floor of
the base-2 logarithm, by repeated halving.  Fuel-structured (fuel `n`
suffices) so that it reduces by kernel computation. -/
def log2_floor_aux : Nat → Nat → Nat
  | 0, _ => 0
  | fuel + 1, n => if 2 ≤ n then log2_floor_aux fuel (n / 2) + 1 else 0

/-- Modelled from the spec: `log2_floor(num)` — floor of the base-2 log. -/
def log2_floor (n : Nat) : Nat :=
  log2_floor_aux n n

/-- `usize::is_power_of_two` (exactly one binary digit set), by repeated
halving; fuel-structured so that it reduces by kernel computation. -/
def is_power_of_two_aux : Nat → Nat → Bool
  | 0, _ => false
  | fuel + 1, n =>
      if n = 1 then true
      else if n % 2 = 1 then false
      else is_power_of_two_aux fuel (n / 2)

/-- `usize::is_power_of_two`. -/
def is_power_of_two (n : Nat) : Bool :=
  if n = 0 then false else is_power_of_two_aux n n

/-- fri.rs line 97: `num_steps = log2_floor(initial_degree_plus_one /
final_degree_plus_one) / log2_floor(wrapping_factor)` — plain truncating
(`floor`) natural division on both levels. -/
def fri_num_steps (initial_degree_plus_one final_degree_plus_one wrapping_factor : Nat) : Nat :=
  log2_floor (initial_degree_plus_one / final_degree_plus_one) / log2_floor wrapping_factor

/-- fri.rs lines 84-97: the eager configuration phase of
`proof_from_lde_by_values`.  It checks `precomputations.domain_size() ==
initial_domain_size` (line 85), `final_degree_plus_one.is_power_of_two()`
(line 92) and `lde_factor.is_power_of_two()` (line 93); a failed `assert!`
is modelled as `none`.  On success it returns `num_steps` as computed on
line 97 from `initial_degree_plus_one = initial_domain_size / lde_factor`
(line 95).  No other configuration condition is checked. -/
def fri_config (domain_size precomp_domain_size lde_factor output_poly_degree wrapping_factor :
    Nat) : Option Nat :=
  let final_degree_plus_one := output_poly_degree + 1
  if precomp_domain_size = domain_size ∧ is_power_of_two final_degree_plus_one = true ∧
      is_power_of_two lde_factor = true then
    some (fri_num_steps (domain_size / lde_factor) final_degree_plus_one wrapping_factor)
  else none

section FriFold

variable {F : Type} [Field F]

/-- fri.rs lines 178-192: the combination of one adjacent pair
`(f_at_omega, f_at_minus_omega) = (pair[0], pair[1])`:
`v_even = f(x) + f(-x)`, `v_odd = (f(x) - f(-x)) * omega_inv`, and the
output `(v_odd * challenge + v_even) * two_inv`. -/
def pair_fold (two_inv chal omega_inv f_at_omega f_at_minus_omega : F) : F :=
  ((f_at_omega - f_at_minus_omega) * omega_inv * chal + (f_at_omega + f_at_minus_omega)) * two_inv

/-- fri.rs lines 150-193, one `wrapping_step` = `k` of one batch `b`:
positions `i < wrapping_factor >> (wrapping_step + 1)` of
`next_level_values` are overwritten with the folded pair
`(inputs[2*i], inputs[2*i+1])` using the precomputed inverse root at index
`(batch_id * wrapping_factor) >> (1 + wrapping_step) + pair_idx`
(lines 151 and 176); the remaining positions keep their previous values. -/
def wrap_step (wf : Nat) (omegas_inv : Nat → F) (two_inv chal : F) (b k : Nat)
    (inputs next : Nat → F) : Nat → F :=
  fun i =>
    if i < wf >>> (k + 1) then
      pair_fold two_inv chal (omegas_inv ((b * wf) >>> (1 + k) + i))
        (inputs (2 * i)) (inputs (2 * i + 1))
    else next i

/-- fri.rs lines 150-198: the inner `for wrapping_step in 0..wrapping_factor`
loop for one batch, starting at sub-round index `k` and running `steps`
more iterations.  The state is `(next_level_values, challenge)`; after each
iteration `this_level_values` is the clone of `next_level_values` (line
196), so the inputs of sub-round `k > 0` are the current
`next_level_values`, while sub-round `0` reads the batch slice of
`values_slice` (lines 154-158).  Line 197 `challenge.double()` is additive
doubling of the mutable captured challenge. -/
def batch_steps (wf : Nat) (omegas_inv : Nat → F) (two_inv : F) (slice : Nat → F) (b : Nat) :
    Nat → Nat → (Nat → F) → F → ((Nat → F) × F)
  | _, 0, next, chal => (next, chal)
  | k, steps + 1, next, chal =>
      batch_steps wf omegas_inv two_inv slice b (k + 1) steps
        (wrap_step wf omegas_inv two_inv chal b k (if k = 0 then slice else next) next)
        (chal + chal)

/-- fri.rs lines 143-202: one spawned closure processing the consecutive
batches `b, b+1, ..., b+cnt-1` of its chunk.  The batch slice is
`values_slice[batch_id*wrapping_factor ..]` (line 149); the output for each
batch is `next_level_values[0]` (line 200).  `next_level_values` and the
mutable `challenge` persist across the batches of the chunk (they are
declared outside the `for (j, v)` loop and never reset). -/
def chunk_run (wf : Nat) (omegas_inv : Nat → F) (two_inv : F) (values : Nat → F) :
    Nat → Nat → (Nat → F) → F → List F
  | _, 0, _, _ => []
  | b, cnt + 1, next, chal =>
      let r := batch_steps wf omegas_inv two_inv (fun t => values (b * wf + t)) b 0 wf next chal
      r.1 0 :: chunk_run wf omegas_inv two_inv values (b + 1) cnt r.1 r.2

/-- fri.rs lines 140-204: `worker.scope(next_values.len(), ...)` splits the
output indices into contiguous chunks of size `chunkSize`
(`next_values.chunks_mut(chunk)`); every chunk starts from a fresh copy of
the drawn challenge `r` and fresh zeroed `next_level_values`.
Fuel-structured on `remaining` (each chunk consumes at least one output
index) so that it reduces by kernel computation. -/
def fold_chunks_aux (wf : Nat) (omegas_inv : Nat → F) (two_inv r : F) (values : Nat → F)
    (chunkSize : Nat) : Nat → Nat → Nat → List F
  | 0, _, _ => []
  | _ + 1, _, 0 => []
  | fuel + 1, start, remaining + 1 =>
      if chunkSize = 0 then []
      else
        let c := min chunkSize (remaining + 1)
        chunk_run wf omegas_inv two_inv values start c (fun _ => 0) r ++
          fold_chunks_aux wf omegas_inv two_inv r values chunkSize fuel (start + c)
            (remaining + 1 - c)

/-- fri.rs lines 140-204: the whole chunked folding of one outer FRI step,
producing the `next_values` vector of length `remaining` (the new domain
size) from the shared drawn challenge `r`. -/
def fold_chunks (wf : Nat) (omegas_inv : Nat → F) (two_inv r : F) (values : Nat → F)
    (chunkSize start remaining : Nat) : List F :=
  fold_chunks_aux wf omegas_inv two_inv r values chunkSize remaining start remaining

/-- Follows the spec's words (§4.1 step 2): `even = f(x) + f(-x)`,
`odd = (f(x) - f(-x)) * omega_inv`, `combined = (odd * c + even) * (1/2)`,
for a given sub-round challenge `c`. -/
def spec_combine (two_inv c omega_inv fx fmx : F) : F :=
  ((fx - fmx) * omega_inv * c + (fx + fmx)) * two_inv

/-- Follows the spec's words (§4.1 step 2): level `k` of the sub-round
folding tree of batch `b`.  Level `0` is the batch's input slice; level
`k+1` at position `i` combines the adjacent pair `(level k at 2i, level k
at 2i+1)` with the sub-round challenge `chals k` and the bit-reversed
inverse root at index `(b * wf) >>> (1 + k) + i`.  The per-sub-round
challenge sequence `chals` is an explicit parameter, so that both the
spec's claimed schedule `chals k = r ^ (2 ^ k)` and the schedule actually
implemented by the code can be plugged in. -/
def spec_levels (wf : Nat) (omegas_inv : Nat → F) (two_inv : F) (chals : Nat → F) (b : Nat)
    (slice : Nat → F) : Nat → Nat → F
  | 0, i => slice i
  | k + 1, i =>
      spec_combine two_inv (chals k) (omegas_inv ((b * wf) >>> (1 + k) + i))
        (spec_levels wf omegas_inv two_inv chals b slice k (2 * i))
        (spec_levels wf omegas_inv two_inv chals b slice k (2 * i + 1))

/-- Follows the spec's words (§4.1 steps 2-3): the folded output of batch
`b` after `w = log2(wrapping_factor)` binary sub-rounds with challenge
sequence `chals`. -/
def spec_batch (wf w : Nat) (omegas_inv : Nat → F) (two_inv : F) (chals : Nat → F) (b : Nat)
    (slice : Nat → F) : F :=
  spec_levels wf omegas_inv two_inv chals b slice w 0

end FriFold

section FriFinal

variable {F : Type} [Field F] [DecidableEq F]

/-- fri.rs lines 230-236: the top-down scan
`for c in final_poly_coeffs.iter().rev() { if c.is_zero() { degree -= 1 } else { break } }`
over the reversed coefficient list, starting from `degree =
final_poly_coeffs.len() - 1`.  `degree` is a `usize`; decrementing it below
zero is an arithmetic underflow (a panic in debug builds), modelled as
`none`. -/
def degree_scan : List F → Nat → Option Nat
  | [], degree => some degree
  | c :: rest, degree =>
      if c = 0 then
        if degree = 0 then none else degree_scan rest (degree - 1)
      else some degree

/-- fri.rs line 229 + lines 230-236: `degree = final_poly_coeffs.len() - 1`
followed by the top-down scan.  An empty coefficient vector already
underflows on line 229. -/
def final_degree (coeffs : List F) : Option Nat :=
  match coeffs with
  | [] => none
  | _ :: _ => degree_scan coeffs.reverse (coeffs.length - 1)

/-- fri.rs lines 229-240: the degree-bound enforcement on the coefficient
vector produced by the inverse coset FFT:
`assert!(degree < final_degree_plus_one)` (modelled as `none` on failure),
then `final_poly_coeffs.truncate(final_degree_plus_one)`. -/
def fri_finalize (final_degree_plus_one : Nat) (coeffs : List F) : Option (List F) :=
  match final_degree coeffs with
  | none => none
  | some degree =>
      if degree < final_degree_plus_one then some (coeffs.take final_degree_plus_one)
      else none

end FriFinal

/-- The `FriProofPrototype` (fri.rs lines 242-247). -/
structure FriProofPrototype (F O : Type) where
  oracles : List O
  challenges : List F
  intermediate_values : List (List F)
  final_coefficients : List F
deriving DecidableEq

/-- The capabilities `proof_from_lde_by_values` consumes: the oracle
contract (`create`, `get_commitment`), the channel contract (`consume`,
`get_field_element`), the precomputation's bit-reversed inverse-root table,
and the worker's chunk-size choice (`worker.scope` picks the chunk size
from the number of output indices). -/
structure FriEnv (F O Com S : Type) where
  create : List F → O
  commit : O → Com
  consume : S → Com → S
  getFE : S → F × S
  omegas_inv : Nat → F
  chunk_of : Nat → Nat

/-- The prover's mutable state across the `for fri_step in 0..num_steps`
loop of fri.rs lines 117-217. -/
structure FoldState (F O S : Type) where
  oracles : List O
  challenges : List F
  intermediate_values : List (List F)
  values_slice : List F
  this_domain_size : Nat
  ch : S

section FriProver

variable {F : Type} [Field F] [DecidableEq F] {O Com S : Type}

/-- fri.rs lines 117-217, the body of one `fri_step`: halve the domain by
`wrapping_factor` (line 118), absorb the last oracle's commitment and draw
the step challenge (lines 121-123), fold all output indices in worker
chunks (lines 140-204), then — only when this is not the final step — push
an oracle over the new values and shrink `this_domain_size` (lines
207-211); finally record the new values (lines 213-216). -/
def fri_step_fn (env : FriEnv F O Com S) (two_inv : F) (wf num_steps fri_step : Nat)
    (st : FoldState F O S) : FoldState F O S :=
  let next_domain_size := st.this_domain_size / wf
  let ch1 := env.consume st.ch (env.commit (st.oracles.getLastD (env.create [])))
  let p := env.getFE ch1
  let next_values := fold_chunks wf env.omegas_inv two_inv p.1
      (fun i => st.values_slice.getD i 0) (env.chunk_of next_domain_size) 0 next_domain_size
  { oracles :=
      if fri_step < num_steps - 1 then st.oracles ++ [env.create next_values] else st.oracles
    challenges := st.challenges ++ [p.1]
    intermediate_values := st.intermediate_values ++ [next_values]
    values_slice := next_values
    this_domain_size := if fri_step < num_steps - 1 then next_domain_size else st.this_domain_size
    ch := p.2 }

/-- fri.rs lines 117-217: the outer folding loop, running `remaining` more
steps starting at step index `fri_step`. -/
def fri_loop (env : FriEnv F O Com S) (two_inv : F) (wf num_steps : Nat) :
    Nat → Nat → FoldState F O S → FoldState F O S
  | _, 0, st => st
  | fri_step, remaining + 1, st =>
      fri_loop env two_inv wf num_steps (fri_step + 1) remaining
        (fri_step_fn env two_inv wf num_steps fri_step st)

/-- fri.rs lines 73-248 with the `two_inv` value (line 89) passed
explicitly: the configuration phase (lines 84-97), the layer-0 oracle push
(lines 104-106), the folding loop (lines 117-217), the three post-loop
`assert_eq!` length checks (lines 219-221, modelled as `none` on failure),
and the degree-bound enforcement plus truncation (lines 223-247).  The
un-bit-reversal and inverse coset FFT of the last layer (lines 223-227) are
code of this repository not under src/ and are abstracted as the parameter
`bitrev_icoset_fft` (the claims below never depend on its behaviour). -/
def proof_from_lde_core (env : FriEnv F O Com S) (two_inv : F)
    (bitrev_icoset_fft : List F → List F)
    (precomp_domain_size : Nat) (lde_values : List F) (lde_factor : Nat)
    (output_poly_degree wrapping_factor : Nat) (ch0 : S) :
    Option (FriProofPrototype F O) :=
  match fri_config lde_values.length precomp_domain_size lde_factor output_poly_degree
      wrapping_factor with
  | none => none
  | some num_steps =>
      let final_degree_plus_one := output_poly_degree + 1
      let st0 : FoldState F O S :=
        { oracles := [env.create lde_values]
          challenges := []
          intermediate_values := []
          values_slice := lde_values
          this_domain_size := lde_values.length
          ch := ch0 }
      let st := fri_loop env two_inv wrapping_factor num_steps 0 num_steps st0
      if st.challenges.length ≠ num_steps then none
      else if st.oracles.length ≠ num_steps then none
      else if st.intermediate_values.length ≠ num_steps then none
      else
        match fri_finalize final_degree_plus_one (bitrev_icoset_fft st.values_slice) with
        | none => none
        | some final_poly_coeffs =>
            some { oracles := st.oracles
                   challenges := st.challenges
                   intermediate_values := st.intermediate_values
                   final_coefficients := final_poly_coeffs }

/-- fri.rs lines 73-248, `proof_from_lde_by_values`, with
`two_inv = (one + one).inverse()` as computed on lines 87-89. -/
def proof_from_lde_by_values (env : FriEnv F O Com S)
    (bitrev_icoset_fft : List F → List F)
    (precomp_domain_size : Nat) (lde_values : List F) (lde_factor : Nat)
    (output_poly_degree wrapping_factor : Nat) (ch0 : S) :
    Option (FriProofPrototype F O) :=
  proof_from_lde_core env ((1 + 1 : F)⁻¹) bitrev_icoset_fft precomp_domain_size lde_values
    lde_factor output_poly_degree wrapping_factor ch0

end FriProver

section FriChallenges

variable {F Com S : Type}

/-- fri.rs lines 45-62, `get_fri_challenges`: for each commitment of the proof
in order, `channel.consume(&commitment)` then
`channel.get_field_element()`, collecting the drawn elements. -/
def get_fri_challenges (consume : S → Com → S) (getFE : S → F × S) :
    List Com → S → List F
  | [], _ => []
  | c :: cs, ch =>
      (getFE (consume ch c)).1 :: get_fri_challenges consume getFE cs (getFE (consume ch c)).2

/-- The channel state after consuming a list of commitments and drawing one
field element after each, as `get_fri_challenges` does. -/
def channel_after (consume : S → Com → S) (getFE : S → F × S) :
    List Com → S → S
  | [], ch => ch
  | c :: cs, ch => channel_after consume getFE cs (getFE (consume ch c)).2

end FriChallenges

/-- The opening values and labeled commitments of `RedshiftProof`
(verifier.rs lines 19 and 379-399). -/
structure RedshiftProof (F Com : Type) where
  commitments : List (String × Com)
  a_opening_value : F
  b_opening_value : F
  c_opening_value : F
  c_shifted_opening_value : F
  q_l_opening_value : F
  q_r_opening_value : F
  q_o_opening_value : F
  q_m_opening_value : F
  q_c_opening_value : F
  q_add_sel_opening_value : F
  s_id_opening_value : F
  sigma_1_opening_value : F
  sigma_2_opening_value : F
  sigma_3_opening_value : F
  z_1_opening_value : F
  z_2_opening_value : F
  z_1_shifted_opening_value : F
  z_2_shifted_opening_value : F
  t_low_opening_value : F
  t_mid_opening_value : F
  t_high_opening_value : F

section Verifier

variable {F : Type} [Field F] [DecidableEq F] {Com S : Type}

/-- verifier.rs lines 33-35, `find_commitment_by_label`. -/
def find_commitment_by_label (label : String) (arr : List (String × Com)) : Option Com :=
  (arr.find? (fun p => p.1 = label)).map (fun p => p.2)

/-- verifier.rs lines 37-80: the Fiat-Shamir threading around the labeled
commitments: consume `a`, `b`, `c`; draw `beta`, `gamma`; consume `z_1`,
`z_2`; draw `alpha`; consume `t_low`, `t_mid`, `t_high`.  Returns
`(beta, gamma, alpha, channel state)`. -/
def fs_challenges (consume : S → Com → S) (produce : S → F × S) (ch0 : S)
    (ca cb cc c1 c2 ctl ctm cth : Com) : F × F × F × S :=
  let ch := consume (consume (consume ch0 ca) cb) cc
  let pb := produce ch
  let pg := produce pb.2
  let ch := consume (consume pg.2 c1) c2
  let pa := produce ch
  let ch := consume (consume (consume pa.2 ctl) ctm) cth
  (pb.1, pg.1, pa.1, ch)

/-- verifier.rs lines 82-86: draw `z` until `z^n ≠ 1` and `z ≠ 0`, starting
from `z = one`.  The loop is unbounded in the source; it is modelled with
fuel, `none` meaning the loop has not terminated within `fuel` draws. -/
def draw_z (produce : S → F × S) (n : Nat) : Nat → F → S → Option (F × S)
  | 0, z, ch => if z ^ n = 1 ∨ z = 0 then none else some (z, ch)
  | fuel + 1, z, ch =>
      if z ^ n = 1 ∨ z = 0 then
        let p := produce ch
        draw_z produce n fuel p.1 p.2
      else some (z, ch)

/-- verifier.rs lines 118-131: `PI_at_z`, the negated public-input
combination `-∑ public_inputs[i] * L_i(z)` (the `i = 0` branch of the loop
uses the same Lagrange evaluation as the general branch). -/
def PI_at_z (eval_lagrange : Nat → Nat → F → F) (required_domain_size : Nat) (z : F)
    (public_inputs : List F) : F :=
  public_inputs.enum.foldl
    (fun acc p => acc - eval_lagrange required_domain_size p.1 z * p.2) 0

/-- verifier.rs lines 137-149: `t_at_z` recombined from the provided
`t_low`, `t_mid`, `t_high` openings with `z_in_pow_of_domain_size =
z^required_domain_size`. -/
def t_at_z_value (n : Nat) (z : F) (P : RedshiftProof F Com) : F :=
  let z_in_pow_of_domain_size := z ^ (n + 1)
  P.t_low_opening_value + z_in_pow_of_domain_size * P.t_mid_opening_value +
    z_in_pow_of_domain_size * z_in_pow_of_domain_size * P.t_high_opening_value

/-- verifier.rs lines 107-275: the recomputed combined identity value
`t_1`.  `inverse_vanishing_at_z` is multiplied by `alpha` before each of
the four permutation/boundary blocks (lines 216, 246, 258, 270), so block
`i` uses `eval_inverse_vanishing(z) * alpha^i`.  `n_fe` is the field
embedding of `n` and `two_n_fe` its additive double (lines 187-189). -/
def t_1_value (eval_inv_vanishing : Nat → F → F) (eval_lagrange : Nat → Nat → F → F)
    (n : Nat) (public_inputs : List F) (beta gamma alpha z : F)
    (P : RedshiftProof F Com) : F :=
  let required_domain_size := n + 1
  let inverse_vanishing_0 := eval_inv_vanishing required_domain_size z
  let l_0_at_z := eval_lagrange required_domain_size 0 z
  let l_n_minus_one_at_z := eval_lagrange required_domain_size (n - 1) z
  let pi := PI_at_z eval_lagrange required_domain_size z public_inputs
  let n_fe : F := (n : F)
  let two_n_fe := n_fe + n_fe
  let t_1_gates :=
    (P.q_c_opening_value + P.q_l_opening_value * P.a_opening_value +
        P.q_r_opening_value * P.b_opening_value + P.q_o_opening_value * P.c_opening_value +
        P.q_m_opening_value * P.a_opening_value * P.b_opening_value +
        P.q_add_sel_opening_value * P.c_shifted_opening_value + pi) * inverse_vanishing_0
  let inverse_vanishing_1 := inverse_vanishing_0 * alpha
  let block_1 :=
    (P.z_1_opening_value * (P.s_id_opening_value * beta + P.a_opening_value + gamma) *
        ((P.s_id_opening_value + n_fe) * beta + P.b_opening_value + gamma) *
        ((P.s_id_opening_value + two_n_fe) * beta + P.c_opening_value + gamma) -
      P.z_1_shifted_opening_value) * inverse_vanishing_1
  let inverse_vanishing_2 := inverse_vanishing_1 * alpha
  let block_2 :=
    (P.z_2_opening_value * (P.sigma_1_opening_value * beta + P.a_opening_value + gamma) *
        (P.sigma_2_opening_value * beta + P.b_opening_value + gamma) *
        (P.sigma_3_opening_value * beta + P.c_opening_value + gamma) -
      P.z_2_shifted_opening_value) * inverse_vanishing_2
  let inverse_vanishing_3 := inverse_vanishing_2 * alpha
  let block_3 :=
    (P.z_1_shifted_opening_value - P.z_2_shifted_opening_value) * l_n_minus_one_at_z *
      inverse_vanishing_3
  let inverse_vanishing_4 := inverse_vanishing_3 * alpha
  let block_4 := (P.z_1_opening_value - P.z_2_opening_value) * l_0_at_z * inverse_vanishing_4
  t_1_gates + block_1 + block_2 + block_3 + block_4

/-- verifier.rs lines 18-280, `verify_proof` up to the final-equation check:
the `assert!(required_domain_size.is_power_of_two())` (line 31, modelled as
`none` on failure), the eight labeled-commitment lookups each returning
`Ok(false)` when missing (lines 37-80), the `z`-drawing loop (lines 82-86),
and the comparison of the recomputed `t_1` against the provided `t(z)`
opening returning `Ok(false)` on mismatch (lines 277-280).  `none` models
both a panic and control flow reaching the source fragment past line 280
(which is syntactically incomplete in the repository). -/
def verify_proof (consume : S → Com → S) (produce : S → F × S)
    (eval_inv_vanishing : Nat → F → F) (eval_lagrange : Nat → Nat → F → F)
    (ch0 : S) (fuel : Nat) (P : RedshiftProof F Com) (public_inputs : List F) (n : Nat) :
    Option Bool :=
  if is_power_of_two (n + 1) = true then
    match find_commitment_by_label "a" P.commitments,
        find_commitment_by_label "b" P.commitments,
        find_commitment_by_label "c" P.commitments,
        find_commitment_by_label "z_1" P.commitments,
        find_commitment_by_label "z_2" P.commitments,
        find_commitment_by_label "t_low" P.commitments,
        find_commitment_by_label "t_mid" P.commitments,
        find_commitment_by_label "t_high" P.commitments with
    | some ca, some cb, some cc, some c1, some c2, some ctl, some ctm, some cth =>
        match draw_z produce n fuel 1
            (fs_challenges consume produce ch0 ca cb cc c1 c2 ctl ctm cth).2.2.2 with
        | none => none
        | some pz =>
            if t_1_value eval_inv_vanishing eval_lagrange n public_inputs
                  (fs_challenges consume produce ch0 ca cb cc c1 c2 ctl ctm cth).1
                  (fs_challenges consume produce ch0 ca cb cc c1 c2 ctl ctm cth).2.1
                  (fs_challenges consume produce ch0 ca cb cc c1 c2 ctl ctm cth).2.2.1
                  pz.1 P =
                t_at_z_value n pz.1 P then none
            else some false
    | _, _, _, _, _, _, _, _ => some false
  else none

end Verifier

/-! Concrete instances over `Z/17` used by the correctness witnesses. -/

instance : Fact (Nat.Prime 17) := ⟨by norm_num⟩

/-- A tiny concrete capability instantiation over `Z/17`: the oracle over a
layer is the layer itself, commitments are trivial, the channel always
draws the field element `5`, and the worker always picks chunk size 2. -/
def witness_env : FriEnv (ZMod 17) (List (ZMod 17)) Nat Nat :=
  { create := fun v => v
    commit := fun _ => 0
    consume := fun s _ => s
    getFE := fun s => (5, s)
    omegas_inv := fun i => (i + 1 : ZMod 17)
    chunk_of := fun _ => 2 }

/-- A concrete proof record over `Z/17` with an empty labeled-commitment
list and zero opening values. -/
def witness_proof : RedshiftProof (ZMod 17) Nat :=
  { commitments := []
    a_opening_value := 0
    b_opening_value := 0
    c_opening_value := 0
    c_shifted_opening_value := 0
    q_l_opening_value := 0
    q_r_opening_value := 0
    q_o_opening_value := 0
    q_m_opening_value := 0
    q_c_opening_value := 0
    q_add_sel_opening_value := 0
    s_id_opening_value := 0
    sigma_1_opening_value := 0
    sigma_2_opening_value := 0
    sigma_3_opening_value := 0
    z_1_opening_value := 0
    z_2_opening_value := 0
    z_1_shifted_opening_value := 0
    z_2_shifted_opening_value := 0
    t_low_opening_value := 0
    t_mid_opening_value := 0
    t_high_opening_value := 0 }

/-! ## Theorems -/

section DegreeScanLemmas

variable {F : Type} [Field F] [DecidableEq F]

theorem degree_scan_le : ∀ (l : List F) (d e : Nat), degree_scan l d = some e → e ≤ d := by
  intro l
  induction l with
  | nil =>
      intro d e h
      simp only [degree_scan, Option.some.injEq] at h
      omega
  | cons c rest ih =>
      intro d e h
      simp only [degree_scan] at h
      by_cases hc : c = 0
      · rw [if_pos hc] at h
        by_cases hd : d = 0
        · rw [if_pos hd] at h; cases h
        · rw [if_neg hd] at h
          have := ih (d - 1) e h
          omega
      · rw [if_neg hc] at h
        injection h with h
        omega

theorem degree_scan_zeros : ∀ (l : List F) (d e : Nat), degree_scan l d = some e →
    ∀ m, m < d - e → l.getD m 0 = 0 := by
  intro l
  induction l with
  | nil => intro d e h m hm; simp [List.getD]
  | cons c rest ih =>
      intro d e h m hm
      simp only [degree_scan] at h
      by_cases hc : c = 0
      · rw [if_pos hc] at h
        by_cases hd : d = 0
        · rw [if_pos hd] at h; cases h
        · rw [if_neg hd] at h
          have hle := degree_scan_le rest (d - 1) e h
          match m with
          | 0 => simpa using hc
          | m + 1 =>
              have hm2 : m < (d - 1) - e := by omega
              simpa using ih (d - 1) e h m hm2
      · rw [if_neg hc] at h
        injection h with h
        omega

theorem final_degree_zeros (coeffs : List F) (e : Nat) (h : final_degree coeffs = some e) :
    ∀ i, e < i → i < coeffs.length → coeffs.getD i 0 = 0 := by
  intro i hei hi
  match coeffs, h with
  | c :: cs, h =>
      simp only [final_degree] at h
      have hle := degree_scan_le _ _ _ h
      have hm : (c :: cs).length - 1 - i < ((c :: cs).length - 1) - e := by
        simp only [List.length_cons] at hi ⊢
        omega
      have hz := degree_scan_zeros _ _ _ h ((c :: cs).length - 1 - i) hm
      have hrl : (c :: cs).length - 1 - i < (c :: cs).reverse.length := by
        simp only [List.length_reverse, List.length_cons]
        omega
      rw [List.getD_eq_getElem _ _ hrl, List.getElem_reverse] at hz
      rw [List.getD_eq_getElem _ _ hi]
      have hidx : (c :: cs).length - 1 - ((c :: cs).length - 1 - i) = i := by
        simp only [List.length_cons] at hi ⊢
        omega
      simp only [hidx] at hz
      exact hz

theorem degree_scan_all_zero : ∀ (l : List F) (d : Nat), (∀ x ∈ l, x = 0) → d < l.length →
    degree_scan l d = none := by
  intro l
  induction l with
  | nil => intro d _ hd; simp at hd
  | cons c rest ih =>
      intro d hz hd
      have hc : c = 0 := hz c (by simp)
      simp only [degree_scan, if_pos hc]
      by_cases h0 : d = 0
      · rw [if_pos h0]
      · rw [if_neg h0]
        refine ih (d - 1) (fun x hx => hz x (by simp [hx])) ?_
        simp only [List.length_cons] at hd
        omega

end DegreeScanLemmas

section DegreeClaims

variable {F : Type} [Field F] [DecidableEq F]

/-- C3: `proof_from_lde_by_values` fails (fatally) whenever the true degree
of the final polynomial — as determined by the top-down scan of the inverse
coset FFT's coefficient vector — is at least `final_degree_plus_one`
(first conjunct; a coefficient-vector with a non-zero coefficient at any
index `≥ final_degree_plus_one` makes `fri_finalize` return `none`); when
it succeeds the returned final coefficient vector has exactly
`final_degree_plus_one` entries (second conjunct); and every successful
`proof_from_lde_by_values` run obtained its `final_coefficients` from
`fri_finalize` at bound `OUTPUT_POLY_DEGREE + 1` (third conjunct), so the
degree check is never bypassed. -/
theorem c3_degree_bound_enforced :
    (∀ (final_degree_plus_one : Nat) (coeffs : List F),
        final_degree_plus_one ≤ coeffs.length →
        ((∃ i, final_degree_plus_one ≤ i ∧ i < coeffs.length ∧ coeffs.getD i 0 ≠ 0) →
            fri_finalize final_degree_plus_one coeffs = none) ∧
        (∀ out, fri_finalize final_degree_plus_one coeffs = some out →
            out.length = final_degree_plus_one)) ∧
    (∀ (O Com S : Type) (env : FriEnv F O Com S) (fft : List F → List F) (pds : Nat)
        (lde_values : List F) (lde_factor opd wf : Nat) (ch0 : S)
        (proto : FriProofPrototype F O),
        proof_from_lde_by_values env fft pds lde_values lde_factor opd wf ch0 = some proto →
        ∃ coeffs, fri_finalize (opd + 1) coeffs = some proto.final_coefficients) := by
  constructor
  · intro fdpo coeffs hlen
    constructor
    · rintro ⟨i, hfi, hil, hne⟩
      unfold fri_finalize
      cases hfd : final_degree coeffs with
      | none => rfl
      | some e =>
          show (if e < fdpo then some (List.take fdpo coeffs) else none) = none
          by_cases he : e < fdpo
          · exact absurd (final_degree_zeros coeffs e hfd i (by omega) hil) hne
          · rw [if_neg he]
    · intro out hout
      unfold fri_finalize at hout
      cases hfd : final_degree coeffs with
      | none => rw [hfd] at hout; cases hout
      | some e =>
          rw [hfd] at hout
          replace hout : (if e < fdpo then some (List.take fdpo coeffs) else none) = some out :=
            hout
          by_cases he : e < fdpo
          · rw [if_pos he] at hout
            injection hout with hout
            rw [← hout, List.length_take]
            omega
          · rw [if_neg he] at hout; cases hout
  · intro O Com S env fft pds lde_values lde_factor opd wf ch0 proto h
    unfold proof_from_lde_by_values proof_from_lde_core at h
    cases hc : fri_config lde_values.length pds lde_factor opd wf with
    | none => rw [hc] at h; cases h
    | some ns =>
        rw [hc] at h
        simp only at h
        split_ifs at h
        cases hff : fri_finalize (opd + 1)
            (fft (fri_loop env ((1 + 1 : F)⁻¹) wf ns 0 ns
              { oracles := [env.create lde_values]
                challenges := []
                intermediate_values := []
                values_slice := lde_values
                this_domain_size := lde_values.length
                ch := ch0 }).values_slice) with
        | none => rw [hff] at h; cases h
        | some c =>
            rw [hff] at h
            injection h with h
            exact ⟨_, by rw [hff, ← h]⟩

/-- C9: when every coefficient produced by the inverse coset FFT is zero,
the top-down degree scan decrements the unsigned `degree` counter once per
coefficient and underflows below zero, so the degree check fails and no
prototype is returned — even though the zero polynomial satisfies any
degree bound. -/
theorem c9_zero_polynomial_underflow (final_degree_plus_one : Nat) (coeffs : List F)
    (hz : ∀ x ∈ coeffs, x = 0) :
    fri_finalize final_degree_plus_one coeffs = none := by
  unfold fri_finalize
  suffices h : final_degree coeffs = none by rw [h]
  cases coeffs with
  | nil => rfl
  | cons c cs =>
      unfold final_degree
      refine degree_scan_all_zero _ _ (fun x hx => hz x (List.mem_reverse.mp hx)) ?_
      simp

end DegreeClaims

/-- Witness for C3 at a concrete input: with bound 2 and coefficients
`[1, 0, 1, 0]` over `Z/17` (true degree 2), finalization fails. -/
theorem c3_degree_bound_enforced_witness :
    (2 ≤ ([1, 0, 1, 0] : List (ZMod 17)).length ∧
        (∃ i, 2 ≤ i ∧ i < ([1, 0, 1, 0] : List (ZMod 17)).length ∧
          ([1, 0, 1, 0] : List (ZMod 17)).getD i 0 ≠ 0)) ∧
    fri_finalize 2 ([1, 0, 1, 0] : List (ZMod 17)) = none :=
  ⟨⟨by decide, ⟨2, by decide, by decide, by decide⟩⟩,
    (c3_degree_bound_enforced.1 2 ([1, 0, 1, 0] : List (ZMod 17)) (by decide)).1
      ⟨2, by decide, by decide, by decide⟩⟩

/-- Witness for C9 at a concrete input: all-zero coefficients `[0, 0, 0]`
over `Z/17` with bound 4 (which the zero polynomial satisfies) still fail. -/
theorem c9_zero_polynomial_underflow_witness :
    (∀ x ∈ ([0, 0, 0] : List (ZMod 17)), x = 0) ∧
    fri_finalize 4 ([0, 0, 0] : List (ZMod 17)) = none :=
  ⟨by decide, c9_zero_polynomial_underflow 4 [0, 0, 0] (by decide)⟩

/-- C4 counterexample: the configuration `initial_domain_size = 16`,
`lde_factor = 2`, `OUTPUT_POLY_DEGREE = 0` and `COLLAPSING_FACTOR = 4`
has `log2(initial_degree_plus_one / final_degree_plus_one) = log2 8 = 3`,
which is not a multiple of `log2 4 = 2`; the claim says such a
configuration is rejected eagerly, but the configuration phase accepts it
and floor-divides, returning `num_steps = 1`. -/
theorem c4_uneven_division_not_rejected :
    ¬ (log2_floor 4 ∣ log2_floor 8) ∧ fri_config 16 16 2 0 4 = some 1 := by
  constructor
  · decide
  · decide

/-- C4 (corrected): `proof_from_lde_by_values` computes
`num_steps = log2_floor(initial_degree_plus_one / final_degree_plus_one) /
log2_floor(COLLAPSING_FACTOR)` by truncating (floor) integer division, and
the eager configuration checks are exactly: the precomputation's domain
size equals the input size, and `final_degree_plus_one` and `lde_factor`
are powers of two.  A non-exact division is not rejected — `num_steps` is
rounded down. -/
theorem c4_config_check_amended (ds pds lde opd wf n : Nat) :
    fri_config ds pds lde opd wf = some n ↔
      (pds = ds ∧ is_power_of_two (opd + 1) = true ∧ is_power_of_two lde = true ∧
        n = log2_floor (ds / lde / (opd + 1)) / log2_floor wf) := by
  simp only [fri_config, fri_num_steps]
  split_ifs with h
  · simp only [Option.some.injEq]
    constructor
    · intro he; exact ⟨h.1, h.2.1, h.2.2, he.symm⟩
    · intro he; exact he.2.2.2.symm
  · constructor
    · intro he; cases he
    · rintro ⟨h1, h2, h3, _⟩; exact absurd ⟨h1, h2, h3⟩ h

section ChallengeReplay

variable {F Com S : Type}

/-- C7: `get_fri_challenges` returns exactly one challenge per commitment
of the proof, in proof order, and the `i`-th returned challenge is the
field element drawn from the channel immediately after consuming the
`i`-th commitment (in the channel state reached by consuming the first `i`
commitments and drawing one element after each).  As a pure function of
the commitment list and the initial channel state, the output is
deterministic by construction. -/
theorem c7_challenge_replay (consume : S → Com → S) (getFE : S → F × S) :
    ∀ (cs : List Com) (ch : S),
      (get_fri_challenges consume getFE cs ch).length = cs.length ∧
      (∀ (i : Nat) (c : Com), cs.get? i = some c →
        (get_fri_challenges consume getFE cs ch).get? i =
          some ((getFE (consume (channel_after consume getFE (cs.take i) ch) c)).1)) := by
  intro cs
  induction cs with
  | nil =>
      intro ch
      refine ⟨rfl, ?_⟩
      intro i c h
      simp at h
  | cons c0 cs ih =>
      intro ch
      constructor
      · simpa [get_fri_challenges] using (ih ((getFE (consume ch c0)).2)).1
      · intro i c h
        match i with
        | 0 =>
            simp only [List.get?] at h
            injection h with h
            subst h
            simp [get_fri_challenges, channel_after]
        | i + 1 =>
            simp only [List.get?] at h
            have hh := (ih ((getFE (consume ch c0)).2)).2 i c h
            simpa [get_fri_challenges, channel_after] using hh

end ChallengeReplay

/-- Witness for C7 at a concrete input: states `Nat`, commitments `[3, 5]`,
`consume` adds the commitment, `get_field_element` returns twice the state
and bumps it; the challenge at index 1 is drawn right after consuming the
commitment `5`. -/
theorem c7_challenge_replay_witness :
    ([3, 5] : List Nat).get? 1 = some 5 ∧
    (get_fri_challenges (fun (s c : Nat) => s + c) (fun s => (s * 2, s + 1)) [3, 5] 0).get? 1 =
      some (((fun s => (s * 2, s + 1))
        ((fun (s c : Nat) => s + c)
          (channel_after (fun (s c : Nat) => s + c) (fun s => (s * 2, s + 1))
            (([3, 5] : List Nat).take 1) 0) 5)).1) :=
  ⟨by decide,
    (c7_challenge_replay (fun (s c : Nat) => s + c) (fun s => (s * 2, s + 1)) [3, 5] 0).2 1 5
      (by decide)⟩

/-- C2: the folded output is NOT independent of the partition of output
indices into worker chunks.  At the failing input (field `Z/17`,
`wrapping_factor = 2`, bit-reversed values `[1, 2, 3, 4]`, inverse-root
table `i ↦ i + 1`, `two_inv = 9`, drawn challenge `3`, two output
indices), a single chunk of size 2 yields `[0, 0]` while two chunks of
size 1 yield `[0, 9]`: the captured mutable challenge keeps doubling
across the batches of a chunk and is only reset at chunk boundaries, so
output index 1 folds with challenge `4·3` in the first partition but with
`3` in the second. -/
theorem c2_chunk_dependence :
    fold_chunks 2 (fun i => (i + 1 : ZMod 17)) 9 3
        (fun i => ([1, 2, 3, 4] : List (ZMod 17)).getD i 0) 2 0 2 ≠
      fold_chunks 2 (fun i => (i + 1 : ZMod 17)) 9 3
        (fun i => ([1, 2, 3, 4] : List (ZMod 17)).getD i 0) 1 0 2 := by
  decide

section OmegaIndexLemmas

variable {F : Type} [Field F]

theorem wrap_step_congr {wf : Nat} {o1 o2 : Nat → F} {two_inv chal : F} {b k : Nat}
    {inputs next : Nat → F}
    (h : ∀ p, p < wf >>> (k + 1) →
        o1 ((b * wf) >>> (1 + k) + p) = o2 ((b * wf) >>> (1 + k) + p)) :
    wrap_step wf o1 two_inv chal b k inputs next =
      wrap_step wf o2 two_inv chal b k inputs next := by
  funext i
  unfold wrap_step
  by_cases hi : i < wf >>> (k + 1)
  · rw [if_pos hi, if_pos hi, h i hi]
  · rw [if_neg hi, if_neg hi]

theorem batch_steps_congr {wf : Nat} {o1 o2 : Nat → F} {two_inv : F} {slice : Nat → F}
    {b : Nat} :
    ∀ (steps k : Nat) (next : Nat → F) (chal : F),
      (∀ j p, j < k + steps → p < wf >>> (j + 1) →
          o1 ((b * wf) >>> (1 + j) + p) = o2 ((b * wf) >>> (1 + j) + p)) →
      batch_steps wf o1 two_inv slice b k steps next chal =
        batch_steps wf o2 two_inv slice b k steps next chal := by
  intro steps
  induction steps with
  | zero => intro k next chal h; rfl
  | succ s ih =>
      intro k next chal h
      show batch_steps wf o1 two_inv slice b (k + 1) s
          (wrap_step wf o1 two_inv chal b k (if k = 0 then slice else next) next)
          (chal + chal) = _
      rw [wrap_step_congr (fun p hp => h k p (by omega) hp)]
      exact ih (k + 1) _ _ (fun j p hj hp => h j p (by omega) hp)

end OmegaIndexLemmas

/-- C6 (corrected): for every batch `b` of the chunk and sub-round `k`, the
pair at position `pair_idx` within the sub-round reads the bit-reversed
inverse-root table at index `(b * wrapping_factor) >> (1 + k) + pair_idx`
(base index plus `pair_idx`, fri.rs line 176), not at the base index
`(b * wrapping_factor) >> (1 + k)` alone: any two tables agreeing at all
those indices produce identical folded chunk outputs. -/
theorem c6_pair_index_amended {F : Type} [Field F] {wf : Nat} {o1 o2 : Nat → F} {two_inv : F}
    {values : Nat → F} :
    ∀ (cnt b0 : Nat) (next : Nat → F) (chal : F),
      (∀ b, b < cnt → ∀ k, k < wf → ∀ p, p < wf >>> (k + 1) →
          o1 (((b0 + b) * wf) >>> (1 + k) + p) = o2 (((b0 + b) * wf) >>> (1 + k) + p)) →
      chunk_run wf o1 two_inv values b0 cnt next chal =
        chunk_run wf o2 two_inv values b0 cnt next chal := by
  intro cnt
  induction cnt with
  | zero => intro b0 next chal h; rfl
  | succ n ih =>
      intro b0 next chal h
      have hb : batch_steps wf o1 two_inv (fun t => values (b0 * wf + t)) b0 0 wf next chal =
          batch_steps wf o2 two_inv (fun t => values (b0 * wf + t)) b0 0 wf next chal := by
        refine batch_steps_congr wf 0 next chal (fun j p hj hp => ?_)
        have := h 0 (by omega) j (by omega) p hp
        simpa using this
      show (batch_steps wf o1 two_inv (fun t => values (b0 * wf + t)) b0 0 wf next chal).1 0 ::
          chunk_run wf o1 two_inv values (b0 + 1) n
            (batch_steps wf o1 two_inv (fun t => values (b0 * wf + t)) b0 0 wf next chal).1
            (batch_steps wf o1 two_inv (fun t => values (b0 * wf + t)) b0 0 wf next chal).2 = _
      rw [hb]
      congr 1
      refine ih (b0 + 1) _ _ (fun b hbn k hk p hp => ?_)
      have := h (b + 1) (by omega) k hk p hp
      have harith : b0 + (b + 1) = b0 + 1 + b := by omega
      rw [harith] at this
      exact this

/-- C6 counterexample: with `wrapping_factor = 4` and batch `0`, the claim
says every pair of sub-round `k` reads the table at index
`(0 * 4) >> (1 + k) = 0` only; the two tables below agree at index 0 (and
at every claimed index) yet the folded outputs differ, because the pair at
position 1 of sub-round 0 actually reads index 1. -/
theorem c6_pair_index_counterexample :
    (∀ k, k < 4 → (fun i => (i + 1 : ZMod 17)) ((0 * 4) >>> (1 + k)) =
        (fun i => if i = 1 then (9 : ZMod 17) else (i + 1 : ZMod 17)) ((0 * 4) >>> (1 + k))) ∧
    chunk_run 4 (fun i => (i + 1 : ZMod 17)) 9
        (fun i => ([1, 2, 3, 4] : List (ZMod 17)).getD i 0) 0 1 (fun _ => 0) 3 ≠
      chunk_run 4 (fun i => if i = 1 then (9 : ZMod 17) else (i + 1 : ZMod 17)) 9
        (fun i => ([1, 2, 3, 4] : List (ZMod 17)).getD i 0) 0 1 (fun _ => 0) 3 := by
  constructor
  · decide
  · decide

/-- Witness for C6: two concrete tables over `Z/17` that agree at every
index of the form `((0 + b) * 2) >> (1 + k) + p` for the single batch of
the chunk give identical outputs. -/
theorem c6_pair_index_amended_witness :
    (∀ b, b < 1 → ∀ k, k < 2 → ∀ p, p < 2 >>> (k + 1) →
        (fun i => (i + 1 : ZMod 17)) (((0 + b) * 2) >>> (1 + k) + p) =
        (fun i => if i = 5 then (9 : ZMod 17) else (i + 1 : ZMod 17))
          (((0 + b) * 2) >>> (1 + k) + p)) ∧
    chunk_run 2 (fun i => (i + 1 : ZMod 17)) 9
        (fun i => ([1, 2, 3, 4] : List (ZMod 17)).getD i 0) 0 1 (fun _ => 0) 3 =
      chunk_run 2 (fun i => if i = 5 then (9 : ZMod 17) else (i + 1 : ZMod 17)) 9
        (fun i => ([1, 2, 3, 4] : List (ZMod 17)).getD i 0) 0 1 (fun _ => 0) 3 :=
  ⟨by decide, c6_pair_index_amended 1 0 (fun _ => 0) 3 (by decide)⟩

section LoopInvariant

variable {F : Type} [Field F] {O Com S : Type}

theorem take_map_append_helper {α β : Type} (f : α → β) (init : α) (l : List α) (x : α)
    (n : Nat) (h : l.length + 1 ≤ n) :
    (f init :: (l.take n).map f) ++ [f x] = f init :: ((l ++ [x]).take n).map f := by
  rw [List.take_of_length_le (show (l ++ [x]).length ≤ n by simp; omega),
    List.take_of_length_le (show l.length ≤ n by omega)]
  simp

theorem fri_loop_invariant (env : FriEnv F O Com S) (two_inv : F) (wf num_steps : Nat)
    (init : List F) :
    ∀ (remaining s : Nat) (st : FoldState F O S),
      s + remaining = num_steps →
      st.challenges.length = s →
      st.intermediate_values.length = s →
      st.oracles =
        env.create init :: (st.intermediate_values.take (num_steps - 1)).map env.create →
      (fri_loop env two_inv wf num_steps s remaining st).challenges.length = num_steps ∧
      (fri_loop env two_inv wf num_steps s remaining st).intermediate_values.length = num_steps ∧
      (fri_loop env two_inv wf num_steps s remaining st).oracles =
        env.create init ::
          ((fri_loop env two_inv wf num_steps s remaining st).intermediate_values.take
            (num_steps - 1)).map env.create := by
  intro remaining
  induction remaining with
  | zero =>
      intro s st h1 h2 h3 h4
      have hs : s = num_steps := by omega
      subst hs
      exact ⟨h2, h3, h4⟩
  | succ r ih =>
      intro s st h1 h2 h3 h4
      show (fri_loop env two_inv wf num_steps (s + 1) r
          (fri_step_fn env two_inv wf num_steps s st)).challenges.length = num_steps ∧ _
      refine ih (s + 1) (fri_step_fn env two_inv wf num_steps s st) (by omega) ?_ ?_ ?_
      · simp [fri_step_fn, h2]
      · simp [fri_step_fn, h3]
      · by_cases hlt : s < num_steps - 1
        · simp only [fri_step_fn, if_pos hlt]
          rw [h4]
          exact take_map_append_helper env.create init st.intermediate_values _ (num_steps - 1)
            (by rw [h3]; omega)
        · simp only [fri_step_fn, if_neg hlt]
          rw [h4]
          have hns : num_steps - 1 ≤ st.intermediate_values.length := by rw [h3]; omega
          rw [List.take_append_of_le_length hns]

end LoopInvariant

/-- C10: when the configuration phase yields `num_steps = 0`
(`initial_degree_plus_one = final_degree_plus_one`), `proof_from_lde_by_values`
never returns a prototype: the layer-0 oracle is pushed before the folding
loop, so after the (empty) loop `oracles.len() == 1 != 0 == num_steps` and
the post-loop length check aborts the call. -/
theorem c10_zero_steps_never_succeeds {F : Type} [Field F] [DecidableEq F] {O Com S : Type}
    (env : FriEnv F O Com S) (fft : List F → List F) (pds : Nat) (lde_values : List F)
    (lde_factor opd wf : Nat) (ch0 : S)
    (h : fri_config lde_values.length pds lde_factor opd wf = some 0) :
    proof_from_lde_by_values env fft pds lde_values lde_factor opd wf ch0 = none := by
  unfold proof_from_lde_by_values proof_from_lde_core
  rw [h]
  simp [fri_loop]

/-- Witness for C10 at a concrete input: domain size 8, `lde_factor = 8`
(so `initial_degree_plus_one = final_degree_plus_one = 1` and
`num_steps = 0`); proof generation fails. -/
theorem c10_zero_steps_never_succeeds_witness :
    fri_config ([1, 2, 3, 4, 5, 6, 7, 8] : List (ZMod 17)).length 8 8 0 2 = some 0 ∧
    proof_from_lde_by_values witness_env (fun _ => [2, 0]) 8 [1, 2, 3, 4, 5, 6, 7, 8] 8 0 2 0 =
      none :=
  ⟨by decide,
    c10_zero_steps_never_succeeds witness_env (fun _ => [2, 0]) 8 [1, 2, 3, 4, 5, 6, 7, 8] 8 0 2 0
      (by decide)⟩

/-- C5: every prototype returned successfully by `proof_from_lde_by_values`
satisfies `len(oracles) = len(challenges) = len(intermediate_values) =
num_steps`, and the oracle list is the layer-0 oracle over the input values
followed by one oracle per non-final folding step (the oracles over all but
the last entry of `intermediate_values`). -/
theorem c5_layer_count_invariant {F : Type} [Field F] [DecidableEq F] {O Com S : Type}
    (env : FriEnv F O Com S) (fft : List F → List F) (pds : Nat) (lde_values : List F)
    (lde_factor opd wf : Nat) (ch0 : S) (proto : FriProofPrototype F O)
    (h : proof_from_lde_by_values env fft pds lde_values lde_factor opd wf ch0 = some proto) :
    ∃ num_steps, fri_config lde_values.length pds lde_factor opd wf = some num_steps ∧
      proto.oracles.length = num_steps ∧
      proto.challenges.length = num_steps ∧
      proto.intermediate_values.length = num_steps ∧
      proto.oracles =
        env.create lde_values ::
          (proto.intermediate_values.take (num_steps - 1)).map env.create := by
  unfold proof_from_lde_by_values proof_from_lde_core at h
  cases hc : fri_config lde_values.length pds lde_factor opd wf with
  | none => rw [hc] at h; cases h
  | some ns =>
      rw [hc] at h
      simp only at h
      refine ⟨ns, rfl, ?_⟩
      have hinv := fri_loop_invariant env ((1 + 1 : F)⁻¹) wf ns lde_values ns 0
        { oracles := [env.create lde_values]
          challenges := []
          intermediate_values := []
          values_slice := lde_values
          this_domain_size := lde_values.length
          ch := ch0 }
        (by omega) rfl rfl (by simp)
      rcases Nat.eq_zero_or_pos ns with hns | hns
      · subst hns
        rw [if_neg (not_not_intro hinv.1), if_pos (by simp [fri_loop])] at h
        cases h
      · have horlen :
            (fri_loop env ((1 + 1 : F)⁻¹) wf ns 0 ns
              { oracles := [env.create lde_values]
                challenges := []
                intermediate_values := []
                values_slice := lde_values
                this_domain_size := lde_values.length
                ch := ch0 }).oracles.length = ns := by
          rw [hinv.2.2]
          simp only [List.length_cons, List.length_map, List.length_take, hinv.2.1]
          omega
        rw [if_neg (not_not_intro hinv.1), if_neg (not_not_intro horlen),
          if_neg (not_not_intro hinv.2.1)] at h
        cases hff : fri_finalize (opd + 1)
            (fft (fri_loop env ((1 + 1 : F)⁻¹) wf ns 0 ns
              { oracles := [env.create lde_values]
                challenges := []
                intermediate_values := []
                values_slice := lde_values
                this_domain_size := lde_values.length
                ch := ch0 }).values_slice) with
        | none => rw [hff] at h; cases h
        | some c =>
            rw [hff] at h
            injection h with h
            subst h
            exact ⟨horlen, hinv.1, hinv.2.1, hinv.2.2⟩

/-- Witness for C5 at a concrete input: domain size 4, `lde_factor = 2`,
`COLLAPSING_FACTOR = 2`, one folding step; the successful prototype has one
oracle (the layer-0 oracle over the inputs), one challenge and one
intermediate layer. -/
theorem c5_layer_count_invariant_witness :
    proof_from_lde_by_values witness_env (fun _ => [2, 0]) 4 [1, 2, 3, 4] 2 0 2 0 =
        some { oracles := [[1, 2, 3, 4]], challenges := [5],
               intermediate_values := [[16, 9]], final_coefficients := [2] } ∧
    ∃ num_steps, fri_config ([1, 2, 3, 4] : List (ZMod 17)).length 4 2 0 2 = some num_steps ∧
      ([[1, 2, 3, 4]] : List (List (ZMod 17))).length = num_steps ∧
      ([5] : List (ZMod 17)).length = num_steps ∧
      ([[16, 9]] : List (List (ZMod 17))).length = num_steps ∧
      ([[1, 2, 3, 4]] : List (List (ZMod 17))) =
        witness_env.create [1, 2, 3, 4] ::
          (([[16, 9]] : List (List (ZMod 17))).take (num_steps - 1)).map witness_env.create := by
  have h : proof_from_lde_by_values witness_env (fun _ => [2, 0]) 4 [1, 2, 3, 4] 2 0 2 0 =
      some { oracles := [[1, 2, 3, 4]], challenges := [5],
             intermediate_values := [[16, 9]], final_coefficients := [2] } := by
    show proof_from_lde_core witness_env ((1 + 1 : ZMod 17))⁻¹ (fun _ => [2, 0]) 4 [1, 2, 3, 4]
        2 0 2 0 = _
    rw [show ((1 + 1 : ZMod 17))⁻¹ = 9 from inv_eq_of_mul_eq_one_right (by decide)]
    decide
  exact ⟨h, c5_layer_count_invariant witness_env (fun _ => [2, 0]) 4 [1, 2, 3, 4] 2 0 2 0 _ h⟩

section ChallengeScheduleLemmas

variable {F : Type} [Field F]

theorem batch_steps_snd {wf : Nat} {omegas_inv : Nat → F} {two_inv : F} {slice : Nat → F}
    {b : Nat} :
    ∀ (steps k : Nat) (next : Nat → F) (chal : F),
      (batch_steps wf omegas_inv two_inv slice b k steps next chal).2 = 2 ^ steps * chal := by
  intro steps
  induction steps with
  | zero => intro k next chal; simp [batch_steps]
  | succ s ih =>
      intro k next chal
      show (batch_steps wf omegas_inv two_inv slice b (k + 1) s
          (wrap_step wf omegas_inv two_inv chal b k (if k = 0 then slice else next) next)
          (chal + chal)).2 = _
      rw [ih]
      ring

theorem batch_steps_add {wf : Nat} {omegas_inv : Nat → F} {two_inv : F} {slice : Nat → F}
    {b : Nat} :
    ∀ (s t k : Nat) (next : Nat → F) (chal : F),
      batch_steps wf omegas_inv two_inv slice b k (s + t) next chal =
        batch_steps wf omegas_inv two_inv slice b (k + s) t
          (batch_steps wf omegas_inv two_inv slice b k s next chal).1
          (batch_steps wf omegas_inv two_inv slice b k s next chal).2 := by
  intro s
  induction s with
  | zero => intro t k next chal; simp [batch_steps]
  | succ s ih =>
      intro t k next chal
      rw [show s + 1 + t = (s + t) + 1 from by omega]
      simp only [batch_steps]
      rw [ih t (k + 1)]
      rw [show k + 1 + s = k + (s + 1) from by omega]

theorem batch_steps_spec {w : Nat} {omegas_inv : Nat → F} {two_inv : F} {slice : Nat → F}
    {b : Nat} {next : Nat → F} {chal : F} :
    ∀ (k : Nat), k + 1 ≤ w → ∀ (i : Nat), i < 2 ^ w >>> (k + 1) →
      (batch_steps (2 ^ w) omegas_inv two_inv slice b 0 (k + 1) next chal).1 i =
        spec_levels (2 ^ w) omegas_inv two_inv (fun m => 2 ^ m * chal) b slice (k + 1) i := by
  intro k
  induction k with
  | zero =>
      intro hw i hi
      show wrap_step (2 ^ w) omegas_inv two_inv chal b 0 slice next i = _
      simp only [wrap_step]
      rw [if_pos hi]
      simp only [spec_levels, pair_fold, spec_combine, pow_zero, one_mul]
  | succ k ih =>
      intro hw i hi
      have e1 : (2 : Nat) ^ w >>> (k + 1 + 1) = 2 ^ (w - (k + 1 + 1)) := by
        rw [Nat.shiftRight_eq_div_pow]; exact Nat.pow_div (by omega) (by norm_num)
      have e2 : (2 : Nat) ^ w >>> (k + 1) = 2 ^ (w - (k + 1)) := by
        rw [Nat.shiftRight_eq_div_pow]; exact Nat.pow_div (by omega) (by norm_num)
      have e3 : (2 : Nat) ^ (w - (k + 1)) = 2 * 2 ^ (w - (k + 1 + 1)) := by
        rw [show w - (k + 1) = (w - (k + 1 + 1)) + 1 from by omega, pow_succ]
        ring
      have h2i : 2 * i < 2 ^ w >>> (k + 1) := by
        rw [e2, e3]
        rw [e1] at hi
        omega
      have h2i1 : 2 * i + 1 < 2 ^ w >>> (k + 1) := by
        rw [e2, e3]
        rw [e1] at hi
        omega
      have hadd := @batch_steps_add F _ (2 ^ w) omegas_inv two_inv slice b (k + 1) 1 0 next chal
      rw [hadd]
      simp only [Nat.zero_add]
      set N := batch_steps (2 ^ w) omegas_inv two_inv slice b 0 (k + 1) next chal with hN
      have hC : N.2 = 2 ^ (k + 1) * chal := by
        rw [hN]; exact batch_steps_snd (k + 1) 0 next chal
      have ihA : N.1 (2 * i) =
          spec_levels (2 ^ w) omegas_inv two_inv (fun m => 2 ^ m * chal) b slice (k + 1)
            (2 * i) := by
        rw [hN]; exact ih (by omega) (2 * i) h2i
      have ihB : N.1 (2 * i + 1) =
          spec_levels (2 ^ w) omegas_inv two_inv (fun m => 2 ^ m * chal) b slice (k + 1)
            (2 * i + 1) := by
        rw [hN]; exact ih (by omega) (2 * i + 1) h2i1
      show wrap_step (2 ^ w) omegas_inv two_inv N.2 b (k + 1)
          (if k + 1 = 0 then slice else N.1) N.1 i = _
      rw [if_neg (Nat.succ_ne_zero k)]
      simp only [wrap_step]
      rw [if_pos hi, hC, ihA, ihB]
      simp only [spec_levels, pair_fold, spec_combine]

theorem batch_steps_noop {w : Nat} {omegas_inv : Nat → F} {two_inv : F} {slice : Nat → F}
    {b : Nat} :
    ∀ (steps k : Nat) (next : Nat → F) (chal : F) (i : Nat), w ≤ k →
      (batch_steps (2 ^ w) omegas_inv two_inv slice b k steps next chal).1 i = next i := by
  intro steps
  induction steps with
  | zero => intro k next chal i hk; rfl
  | succ s ih =>
      intro k next chal i hk
      show (batch_steps (2 ^ w) omegas_inv two_inv slice b (k + 1) s
          (wrap_step (2 ^ w) omegas_inv two_inv chal b k (if k = 0 then slice else next) next)
          (chal + chal)).1 i = next i
      rw [ih (k + 1) _ _ i (by omega)]
      simp only [wrap_step]
      have h0 : (2 : Nat) ^ w >>> (k + 1) = 0 := by
        rw [Nat.shiftRight_eq_div_pow]
        exact Nat.div_eq_of_lt (Nat.pow_lt_pow_right (by norm_num) (by omega))
      rw [if_neg (by omega)]

theorem batch_steps_head {w : Nat} (hw : 1 ≤ w) {omegas_inv : Nat → F} {two_inv : F}
    {slice : Nat → F} {b : Nat} (next : Nat → F) (chal : F) :
    (batch_steps (2 ^ w) omegas_inv two_inv slice b 0 (2 ^ w) next chal).1 0 =
      spec_batch (2 ^ w) w omegas_inv two_inv (fun m => 2 ^ m * chal) b slice := by
  obtain ⟨w', rfl⟩ : ∃ w', w = w' + 1 := ⟨w - 1, by omega⟩
  have hsplit : 2 ^ (w' + 1) = (w' + 1) + (2 ^ (w' + 1) - (w' + 1)) := by
    have := Nat.lt_two_pow (w' + 1)
    omega
  have hcount : batch_steps (2 ^ (w' + 1)) omegas_inv two_inv slice b 0 (2 ^ (w' + 1)) next
        chal =
      batch_steps (2 ^ (w' + 1)) omegas_inv two_inv slice b 0
        ((w' + 1) + (2 ^ (w' + 1) - (w' + 1))) next chal := by
    rw [← hsplit]
  rw [hcount, batch_steps_add]
  rw [batch_steps_noop (2 ^ (w' + 1) - (w' + 1)) (0 + (w' + 1)) _ _ 0 (by omega)]
  have hb : (0 : Nat) < 2 ^ (w' + 1) >>> (w' + 1) := by
    rw [Nat.shiftRight_eq_div_pow, Nat.div_self (pow_pos (by norm_num) _)]
    norm_num
  rw [batch_steps_spec w' (le_refl _) 0 hb]
  rfl

theorem chunk_run_getD {w : Nat} (hw : 1 ≤ w) {omegas_inv : Nat → F} {two_inv : F}
    {values : Nat → F} :
    ∀ (cnt b0 : Nat) (next : Nat → F) (chal : F) (j : Nat), j < cnt →
      (chunk_run (2 ^ w) omegas_inv two_inv values b0 cnt next chal).getD j 0 =
        spec_batch (2 ^ w) w omegas_inv two_inv (fun m => 2 ^ (j * 2 ^ w + m) * chal) (b0 + j)
          (fun t => values ((b0 + j) * 2 ^ w + t)) := by
  intro cnt
  induction cnt with
  | zero => intro b0 next chal j hj; omega
  | succ n ih =>
      intro b0 next chal j hj
      match j with
      | 0 =>
          have hch : (fun m => (2 : F) ^ (0 * 2 ^ w + m) * chal) = fun m => 2 ^ m * chal := by
            funext m
            rw [Nat.zero_mul, Nat.zero_add]
          rw [hch]
          simp only [chunk_run, List.getD_cons_zero]
          exact batch_steps_head hw next chal
      | j + 1 =>
          simp only [chunk_run, List.getD_cons_succ]
          rw [ih (b0 + 1) _ _ j (by omega)]
          rw [batch_steps_snd]
          have hch : (fun m => (2 : F) ^ (j * 2 ^ w + m) * (2 ^ (2 ^ w) * chal)) =
              fun m => (2 : F) ^ ((j + 1) * 2 ^ w + m) * chal := by
            funext m
            rw [← mul_assoc, ← pow_add]
            rw [show j * 2 ^ w + m + 2 ^ w = (j + 1) * 2 ^ w + m from by ring]
          rw [hch]
          rw [show b0 + 1 + j = b0 + (j + 1) from by omega]

end ChallengeScheduleLemmas

/-- C1 (corrected): within one outer folding step with drawn challenge `r`,
the batch at position `j` of its worker chunk is folded exactly by the
spec's pair formula `(odd * c + even) * two_inv`, but with the sub-round
challenge `c = 2^(j * wrapping_factor + k) * r` at sub-round `k` — the
challenge is additively doubled once per iteration of the
`0..wrapping_factor` sub-round loop and carries across the batches of the
chunk — not `c = r^(2^k)` as the spec claims. -/
theorem c1_fold_challenge_schedule {F : Type} [Field F] (w : Nat) (hw : 1 ≤ w)
    (omegas_inv : Nat → F) (two_inv r : F) (values : Nat → F) (b0 cnt : Nat) (next : Nat → F)
    (j : Nat) (hj : j < cnt) :
    (chunk_run (2 ^ w) omegas_inv two_inv values b0 cnt next r).getD j 0 =
      spec_batch (2 ^ w) w omegas_inv two_inv (fun k => 2 ^ (j * 2 ^ w + k) * r) (b0 + j)
        (fun t => values ((b0 + j) * 2 ^ w + t)) :=
  chunk_run_getD hw cnt b0 next r j hj

/-- C1 counterexample: with `wrapping_factor = 4` over `Z/17`, values
`[1, 2, 3, 4]`, inverse-root table `i ↦ i + 1`, `two_inv = 9` and drawn
challenge `r = 3`, the code folds the first batch of the chunk to `3`,
whereas the claim's challenge schedule `r_k = r^(2^k)` (squaring, so the
sub-round 1 challenge would be `9` instead of the `6` the code uses) would
give `15`. -/
theorem c1_challenge_squaring_counterexample :
    (chunk_run 4 (fun i => (i + 1 : ZMod 17)) 9
        (fun i => ([1, 2, 3, 4] : List (ZMod 17)).getD i 0) 0 1 (fun _ => 0) 3).getD 0 0 ≠
      spec_batch 4 2 (fun i => (i + 1 : ZMod 17)) 9 (fun k => (3 : ZMod 17) ^ 2 ^ k) 0
        (fun t => ([1, 2, 3, 4] : List (ZMod 17)).getD t 0) := by
  decide

/-- Witness for C1 at a concrete input: `wrapping_factor = 2` (`w = 1`),
one batch, chunk position `0`. -/
theorem c1_fold_challenge_schedule_witness :
    (1 ≤ 1 ∧ 0 < 1) ∧
    (chunk_run (2 ^ 1) (fun i => (i + 1 : ZMod 17)) 9
        (fun i => ([1, 2] : List (ZMod 17)).getD i 0) 0 1 (fun _ => 0) 3).getD 0 0 =
      spec_batch (2 ^ 1) 1 (fun i => (i + 1 : ZMod 17)) 9 (fun k => 2 ^ (0 * 2 ^ 1 + k) * 3)
        (0 + 0) (fun t => ([1, 2] : List (ZMod 17)).getD ((0 + 0) * 2 ^ 1 + t) 0) :=
  ⟨⟨le_refl 1, Nat.zero_lt_one⟩,
    c1_fold_challenge_schedule 1 (le_refl 1) (fun i => (i + 1 : ZMod 17)) 9 3
      (fun i => ([1, 2] : List (ZMod 17)).getD i 0) 0 1 (fun _ => 0) 0 Nat.zero_lt_one⟩

/-- C8: `verify_proof` reports an invalid proof as `Ok(false)`, never as an
error: whenever any of the labels `a`, `b`, `c`, `z_1`, `z_2`, `t_low`,
`t_mid`, `t_high` is missing from the proof's labeled commitment list, or
all labels are present and the recomputed combined identity value `t_1`
differs from the `t(z)` value recombined from the provided `t_low`,
`t_mid`, `t_high` openings, the result is `some false`. -/
theorem c8_verifier_invalid_is_false {F : Type} [Field F] [DecidableEq F] {Com S : Type}
    (consume : S → Com → S) (produce : S → F × S) (eval_inv_vanishing : Nat → F → F)
    (eval_lagrange : Nat → Nat → F → F) (ch0 : S) (fuel : Nat) (P : RedshiftProof F Com)
    (public_inputs : List F) (n : Nat)
    (hpow : is_power_of_two (n + 1) = true)
    (hbad :
      (find_commitment_by_label "a" P.commitments = none ∨
        find_commitment_by_label "b" P.commitments = none ∨
        find_commitment_by_label "c" P.commitments = none ∨
        find_commitment_by_label "z_1" P.commitments = none ∨
        find_commitment_by_label "z_2" P.commitments = none ∨
        find_commitment_by_label "t_low" P.commitments = none ∨
        find_commitment_by_label "t_mid" P.commitments = none ∨
        find_commitment_by_label "t_high" P.commitments = none) ∨
      (∃ ca cb cc c1 c2 ctl ctm cth z chz,
        find_commitment_by_label "a" P.commitments = some ca ∧
        find_commitment_by_label "b" P.commitments = some cb ∧
        find_commitment_by_label "c" P.commitments = some cc ∧
        find_commitment_by_label "z_1" P.commitments = some c1 ∧
        find_commitment_by_label "z_2" P.commitments = some c2 ∧
        find_commitment_by_label "t_low" P.commitments = some ctl ∧
        find_commitment_by_label "t_mid" P.commitments = some ctm ∧
        find_commitment_by_label "t_high" P.commitments = some cth ∧
        draw_z produce n fuel 1
            (fs_challenges consume produce ch0 ca cb cc c1 c2 ctl ctm cth).2.2.2 =
          some (z, chz) ∧
        t_1_value eval_inv_vanishing eval_lagrange n public_inputs
            (fs_challenges consume produce ch0 ca cb cc c1 c2 ctl ctm cth).1
            (fs_challenges consume produce ch0 ca cb cc c1 c2 ctl ctm cth).2.1
            (fs_challenges consume produce ch0 ca cb cc c1 c2 ctl ctm cth).2.2.1 z P ≠
          t_at_z_value n z P)) :
    verify_proof consume produce eval_inv_vanishing eval_lagrange ch0 fuel P public_inputs n =
      some false := by
  unfold verify_proof
  rw [if_pos hpow]
  rcases hbad with hmiss |
    ⟨ca, cb, cc, c1, c2, ctl, ctm, cth, z, chz, ha, hb, hc, h1, h2, htl, htm, hth, hdz, hne⟩
  · cases hA : find_commitment_by_label "a" P.commitments with
    | none => rfl
    | some ca =>
    cases hB : find_commitment_by_label "b" P.commitments with
    | none => rfl
    | some cb =>
    cases hC : find_commitment_by_label "c" P.commitments with
    | none => rfl
    | some cc =>
    cases hZ1 : find_commitment_by_label "z_1" P.commitments with
    | none => rfl
    | some c1 =>
    cases hZ2 : find_commitment_by_label "z_2" P.commitments with
    | none => rfl
    | some c2 =>
    cases hTL : find_commitment_by_label "t_low" P.commitments with
    | none => rfl
    | some ctl =>
    cases hTM : find_commitment_by_label "t_mid" P.commitments with
    | none => rfl
    | some ctm =>
    cases hTH : find_commitment_by_label "t_high" P.commitments with
    | none => rfl
    | some cth =>
    exfalso
    rcases hmiss with h | h | h | h | h | h | h | h <;> simp_all
  · rw [ha, hb, hc, h1, h2, htl, htm, hth]
    simp only
    rw [hdz]
    simp only
    rw [if_neg hne]

/-- Witness for C8 at a concrete input: a proof whose labeled commitment
list is empty (so the label `a` is missing) is reported as `some false`. -/
theorem c8_verifier_invalid_is_false_witness :
    is_power_of_two (1 + 1) = true ∧
    verify_proof (fun (s : Nat) (_ : Nat) => s) (fun s => ((0 : ZMod 17), s))
        (fun _ _ => 0) (fun _ _ _ => 0) 0 0 witness_proof [] 1 = some false :=
  ⟨by decide,
    c8_verifier_invalid_is_false (fun (s : Nat) (_ : Nat) => s) (fun s => ((0 : ZMod 17), s))
      (fun _ _ => 0) (fun _ _ _ => 0) 0 0 witness_proof [] 1 (by decide)
      (Or.inl (Or.inl (by decide)))⟩
